import Mathlib

/-!
Verification development for `replace_image_paths.py`: a tool that rewrites
`<img src="...">` references inside the `.content` fragment of `article.html`
files with sequential local filenames `image-2.webp`, `image-3.webp`, ….

Strings are modelled as `List Char` (Python `str` code points).  Regular
expression scans are modelled by explicit structural scans that reproduce the
deterministic behaviour of the patterns used by the source:
`<img\s+src="([^"]+)"`, `(<div class="content">)(.*?)(</div>\s*</body>)` and
`image-(\d+)`.  Recursions that are not structural on the string use an
explicit fuel argument initialised with the string length, so that every
definition evaluates by kernel reduction.
-/

/-- Whitespace characters recognised by the regex class `\s` (ASCII part,
which is the only part the scanned HTML exercises). -/
def isWs (c : Char) : Bool :=
  c == ' ' || c == '\t' || c == '\n' || c == '\r' || c == Char.ofNat 11 || c == Char.ofNat 12

/-- ASCII decimal digit test, the `\d` class of the regex `image-(\d+)`. -/
def isDigitCh (c : Char) : Bool :=
  48 ≤ c.toNat && c.toNat ≤ 57

/-- Character for a decimal digit value. -/
def digitChar (d : Nat) : Char := Char.ofNat (48 + d)

/-- Fuelled decimal printer (fuel ≥ n suffices). -/
def natCharsAux : Nat → Nat → List Char
  | 0, _ => []
  | f + 1, n => if n < 10 then [digitChar n] else natCharsAux f (n / 10) ++ [digitChar (n % 10)]

/-- Decimal representation of a natural number, as Python `str(n)` / f-strings
produce it. -/
def natChars (n : Nat) : List Char := natCharsAux (n + 1) n

theorem natCharsAux_digits {f n : Nat} {c : Char} (h : c ∈ natCharsAux f n) :
    ∃ d, d < 10 ∧ c = digitChar d := by
  induction f generalizing n with
  | zero => simp [natCharsAux] at h
  | succ f ih =>
    by_cases h10 : n < 10
    · simp [natCharsAux, h10] at h
      exact ⟨n, h10, h⟩
    · simp [natCharsAux, h10] at h
      rcases h with h | h
      · exact ih h
      · exact ⟨n % 10, Nat.mod_lt _ (by norm_num), h⟩

theorem natChars_digits {n : Nat} {c : Char} (h : c ∈ natChars n) :
    ∃ d, d < 10 ∧ c = digitChar d :=
  natCharsAux_digits h

theorem digitChar_ne_quote {d : Nat} (h : d < 10) : (digitChar d == '"') = false := by
  interval_cases d <;> decide

/-- Drops the literal `lit` from the front of `s`; `some rest` on success. -/
def dropLit : List Char → List Char → Option (List Char)
  | [], s => some s
  | _ :: _, [] => none
  | l :: ls, c :: cs => if c = l then dropLit ls cs else none

theorem dropLit_eq_some {lit s r : List Char} :
    dropLit lit s = some r ↔ s = lit ++ r := by
  induction lit generalizing s with
  | nil => simp [dropLit, eq_comm]
  | cons l ls ih =>
    cases s with
    | nil => simp [dropLit]
    | cons c cs =>
      by_cases hc : c = l
      · subst hc; simp [dropLit, ih]
      · simp [dropLit, hc]

theorem dropLit_self {lit r : List Char} : dropLit lit (lit ++ r) = some r :=
  dropLit_eq_some.mpr rfl

theorem takeWhile_app {α : Type} {p : α → Bool} {A : List α} {b : α} {B : List α}
    (hA : ∀ c ∈ A, p c = true) (hb : p b = false) :
    (A ++ b :: B).takeWhile p = A ∧ (A ++ b :: B).dropWhile p = b :: B := by
  induction A with
  | nil => simp [List.takeWhile, List.dropWhile, hb]
  | cons a as ih =>
    have ha : p a = true := hA a (by simp)
    have := ih (fun c hc => hA c (by simp [hc]))
    simp [List.takeWhile, List.dropWhile, ha, this.1, this.2]

theorem dropWhile_head_not {α : Type} (p : α → Bool) {l : List α} {a : α} {t : List α}
    (h : l.dropWhile p = a :: t) : p a = false := by
  induction l with
  | nil => simp [List.dropWhile] at h
  | cons x xs ih =>
    by_cases hx : p x = true
    · rw [List.dropWhile_cons_of_pos hx] at h; exact ih h
    · rw [List.dropWhile_cons_of_neg hx] at h
      cases h; simpa using hx

theorem takeWhile_append_drop {α : Type} (p : α → Bool) (l : List α) :
    l.takeWhile p ++ l.dropWhile p = l :=
  List.takeWhile_append_dropWhile p l

/-- Literal `<img` of the image pattern. -/
def litImg : List Char := ['<', 'i', 'm', 'g']

/-- Literal `src="` of the image pattern. -/
def litSrc : List Char := ['s', 'r', 'c', '=', '"']

/-- Attempts to match the regex `<img\s+src="([^"]+)"` at the beginning of
`s`.  On success returns the offset of the captured URL from the start of the
match together with the captured URL (the maximal run of non-quote characters
after `src="`, which is exactly what the backtracking engine captures). -/
def matchImgAt (s : List Char) : Option (Nat × List Char) :=
  match dropLit litImg s with
  | none => none
  | some r1 =>
      let ws := r1.takeWhile isWs
      if ws = [] then none
      else
        match dropLit litSrc (r1.dropWhile isWs) with
        | none => none
        | some r2 =>
            let url := r2.takeWhile (fun c => !(c == '"'))
            if url = [] then none
            else if r2.dropWhile (fun c => !(c == '"')) = [] then none
            else some (9 + ws.length, url)

theorem matchImgAt_build {ws url t : List Char} (hws : ws ≠ [])
    (hwsAll : ∀ c ∈ ws, isWs c = true) (hurl : url ≠ [])
    (hurlAll : ∀ c ∈ url, (c == '"') = false) :
    matchImgAt (litImg ++ ws ++ litSrc ++ url ++ '"' :: t) = some (9 + ws.length, url) := by
  have h1 : dropLit litImg (litImg ++ ws ++ litSrc ++ url ++ '"' :: t)
      = some (ws ++ litSrc ++ url ++ '"' :: t) := by
    rw [show litImg ++ ws ++ litSrc ++ url ++ '"' :: t
        = litImg ++ (ws ++ litSrc ++ url ++ '"' :: t) from by simp]
    exact dropLit_self
  have hsplit : ws ++ litSrc ++ url ++ '"' :: t
      = ws ++ 's' :: (['r', 'c', '=', '"'] ++ (url ++ '"' :: t)) := by simp [litSrc]
  have htw := takeWhile_app (p := isWs) (A := ws) (b := 's')
    (B := ['r', 'c', '=', '"'] ++ (url ++ '"' :: t)) hwsAll (by decide)
  have h2 : (ws ++ litSrc ++ url ++ '"' :: t).takeWhile isWs = ws := by
    rw [hsplit]; exact htw.1
  have h3 : (ws ++ litSrc ++ url ++ '"' :: t).dropWhile isWs = litSrc ++ (url ++ '"' :: t) := by
    rw [hsplit, htw.2]; simp [litSrc]
  have h4 : dropLit litSrc (litSrc ++ (url ++ '"' :: t)) = some (url ++ '"' :: t) :=
    dropLit_self
  have htw2 := takeWhile_app (p := fun c => !(c == '"')) (A := url) (b := '"') (B := t)
    (fun c hc => by simp [hurlAll c hc]) (by decide)
  unfold matchImgAt
  rw [h1]
  simp only [h2, h3, h4, htw2.1, htw2.2, hws, if_false]
  simp [hurl]

theorem matchImgAt_eq_some {s : List Char} {uo : Nat} {url : List Char} :
    matchImgAt s = some (uo, url) ↔
      ∃ ws t, s = litImg ++ ws ++ litSrc ++ url ++ '"' :: t ∧ ws ≠ [] ∧
        (∀ c ∈ ws, isWs c = true) ∧ url ≠ [] ∧ (∀ c ∈ url, (c == '"') = false) ∧
        uo = 9 + ws.length := by
  constructor
  · intro h
    unfold matchImgAt at h
    rcases h1 : dropLit litImg s with _ | r1 <;> rw [h1] at h
    · exact absurd h (by simp)
    have hs1 : s = litImg ++ r1 := dropLit_eq_some.mp h1
    by_cases hws : r1.takeWhile isWs = []
    · simp [hws] at h
    simp only [hws, if_false] at h
    rcases h2 : dropLit litSrc (r1.dropWhile isWs) with _ | r2 <;> rw [h2] at h
    · exact absurd h (by simp)
    have hs2 : r1.dropWhile isWs = litSrc ++ r2 := dropLit_eq_some.mp h2
    by_cases hurl : r2.takeWhile (fun c => !(c == '"')) = []
    · simp [hurl] at h
    by_cases hrest : r2.dropWhile (fun c => !(c == '"')) = []
    · simp [hurl, hrest] at h
    simp only [hurl, hrest, if_false] at h
    have huo : uo = 9 + (r1.takeWhile isWs).length ∧ url = r2.takeWhile (fun c => !(c == '"')) := by
      have := h; simp at this; tauto
    rcases h3 : r2.dropWhile (fun c => !(c == '"')) with _ | ⟨a, t⟩
    · exact absurd h3 hrest
    have ha : (fun c => !(c == '"')) a = false := dropWhile_head_not (fun c => !(c == '"')) h3
    have ha' : a = '"' := by
      by_cases h' : a = '"'
      · exact h'
      · exfalso; simp [h'] at ha
    refine ⟨r1.takeWhile isWs, t, ?_, hws, ?_, ?_, ?_, huo.1⟩
    · have hr1 : r1 = r1.takeWhile isWs ++ (litSrc ++ r2) := by
        rw [← hs2]; exact (takeWhile_append_drop isWs r1).symm
      have hr2 : r2 = url ++ '"' :: t := by
        have hsp := (takeWhile_append_drop (fun c => !(c == '"')) r2).symm
        rw [h3, ha'] at hsp
        rw [huo.2]; exact hsp
      rw [hs1]
      conv_lhs => rw [hr1, hr2]
      simp [List.append_assoc]
    · intro c hc; exact List.mem_takeWhile_imp hc
    · rw [huo.2]; exact hurl
    · intro c hc; rw [huo.2] at hc
      have := List.mem_takeWhile_imp hc
      simpa using this
  · rintro ⟨ws, t, hs, hws, hwsAll, hurl, hurlAll, huo⟩
    subst hs huo
    exact matchImgAt_build hws hwsAll hurl hurlAll

theorem matchImgAt_some_decomp {s : List Char} {uo : Nat} {url : List Char}
    (h : matchImgAt s = some (uo, url)) :
    ∃ pre t, s = pre ++ url ++ '"' :: t ∧ pre.length = uo ∧ 10 ≤ uo ∧
      url ≠ [] ∧ (∀ c ∈ url, (c == '"') = false) ∧ pre.getLast? = some '"' ∧
      ∀ u2 t2, u2 ≠ [] → (∀ c ∈ u2, (c == '"') = false) →
        matchImgAt (pre ++ u2 ++ '"' :: t2) = some (uo, u2) := by
  rcases matchImgAt_eq_some.mp h with ⟨ws, t, hs, hws, hwsAll, hurl, hurlAll, huo⟩
  refine ⟨litImg ++ ws ++ litSrc, t, by simpa [List.append_assoc] using hs, ?_, ?_, hurl, hurlAll, ?_, ?_⟩
  · have : ws.length ≠ 0 := fun h0 => hws (List.length_eq_zero.mp h0)
    simp [litImg, litSrc, huo]; omega
  · have : ws.length ≠ 0 := fun h0 => hws (List.length_eq_zero.mp h0)
    omega
  · rw [show litImg ++ ws ++ litSrc = (litImg ++ ws ++ ['s', 'r', 'c', '=']) ++ ['"'] from by
      simp [litSrc]]
    exact List.getLast?_concat _
  · intro u2 t2 hu2 hu2All
    rw [huo]
    have := @matchImgAt_build ws u2 t2 hws hwsAll hu2 hu2All
    simpa [List.append_assoc] using this

/-- One match of the image regex: the span `[urlStart, urlEnd)` of the captured
URL in the scanned string, and the captured URL itself. -/
structure ImgMatch where
  urlStart : Nat
  urlEnd : Nat
  url : List Char
deriving DecidableEq

/-- Fuelled scan modelling `re.finditer(r'<img\s+src="([^"]+)"', content)`:
tries the pattern at every position from left to right and resumes after the
end of each (non-overlapping) match.  `pos` is the absolute position of the
head of `s` in the scanned string; fuel ≥ `s.length` suffices. -/
def findImgAux : Nat → List Char → Nat → List ImgMatch
  | 0, _, _ => []
  | _ + 1, [], _ => []
  | fuel + 1, s@(_ :: rest), pos =>
    match matchImgAt s with
    | none => findImgAux fuel rest (pos + 1)
    | some (uo, url) =>
        { urlStart := pos + uo, urlEnd := pos + uo + url.length, url := url } ::
          findImgAux fuel (s.drop (uo + url.length + 1)) (pos + uo + url.length + 1)

/-- All matches of `<img\s+src="([^"]+)"` in `content`, left to right, with
spans counted from absolute position `pos`. -/
def findImgMatches (content : List Char) (pos : Nat) : List ImgMatch :=
  findImgAux content.length content pos

/-- One Change Record, the dict
`{'index': …, 'old_url': …, 'new_url': …, 'exists': …}` built by
`replace_images_in_content` (field `exists` is a Lean keyword, hence the
trailing underscore). -/
structure ChangeRecord where
  index : Nat
  old_url : List Char
  new_url : List Char
  exists_ : Bool
deriving DecidableEq

/-- Expected local filename for the 0-based occurrence `i`:
`f"image-{i + 2}.webp"` (the code sets `image_index = i + 2`). -/
def expected_filename (i : Nat) : List Char :=
  "image-".toList ++ natChars (i + 2) ++ ".webp".toList

/-- Loop body of `replace_images_in_content`: processes one `(i, match)` pair,
updating the working copy of the fragment, the running length offset and the
accumulated change list exactly as the Python loop does. -/
def rStep (available_images : List (List Char))
    (acc : List Char × Int × List ChangeRecord) (p : Nat × ImgMatch) :
    List Char × Int × List ChangeRecord :=
  let new_content := acc.1
  let offset := acc.2.1
  let changes := acc.2.2
  let expected := expected_filename p.1
  let old_url := p.2.url
  if available_images.contains expected then
    let new_url := expected
    let start := ((p.2.urlStart : Int) + offset).toNat
    let stop := ((p.2.urlEnd : Int) + offset).toNat
    (new_content.take start ++ new_url ++ new_content.drop stop,
      offset + ((new_url.length : Int) - (old_url.length : Int)),
      changes ++ [{ index := p.1 + 1, old_url := old_url, new_url := new_url, exists_ := true }])
  else
    (new_content, offset,
      changes ++ [{ index := p.1 + 1, old_url := old_url, new_url := expected, exists_ := false }])

/-- The Rewrite Engine `replace_images_in_content(content, available_images, …)`:
finds all `<img src="...">` matches, then for the i-th (0-based) occurrence
replaces the URL span with `image-{i+2}.webp` when that file is available,
tracking a running offset; returns the new fragment and the change list.
The `dry_run`/`folder_name` parameters of the source are unused by it. -/
def replace_images_in_content (content : List Char) (available_images : List (List Char)) :
    List Char × List ChangeRecord :=
  let ms := findImgMatches content 0
  if ms = [] then (content, [])
  else
    let r := (ms.enum).foldl (rStep available_images) (content, 0, [])
    (r.1, r.2.2)

/-- Change Record produced for the enumerated match `p`; both branches of the
loop produce this value (they differ only in whether the text is edited). -/
def mkRecord (available_images : List (List Char)) (p : Nat × ImgMatch) : ChangeRecord :=
  { index := p.1 + 1, old_url := p.2.url, new_url := expected_filename p.1,
    exists_ := available_images.contains (expected_filename p.1) }

/-- Structural form of the rewrite loop: scans the fragment from left to
right, replacing the URL of the i-th match by `expected_filename i` when it is
available and keeping it otherwise.  Provably equal to the fold with running
offset performed by `replace_images_in_content`. -/
def scanAux (available_images : List (List Char)) : Nat → List Char → Nat → List Char
  | 0, s, _ => s
  | _ + 1, [], _ => []
  | fuel + 1, s@(c :: rest), i =>
    match matchImgAt s with
    | none => c :: scanAux available_images fuel rest i
    | some (uo, url) =>
        s.take uo ++
          (if available_images.contains (expected_filename i) then expected_filename i else url) ++
          '"' :: scanAux available_images fuel (s.drop (uo + url.length + 1)) (i + 1)

theorem findImgAux_mem {fuel : Nat} : ∀ {s : List Char} {pos : Nat} {m : ImgMatch},
    m ∈ findImgAux fuel s pos →
      pos + 10 ≤ m.urlStart ∧ m.urlEnd = m.urlStart + m.url.length := by
  induction fuel with
  | zero => intro s pos m h; simp [findImgAux] at h
  | succ fuel ih =>
    intro s pos m h
    cases s with
    | nil => simp [findImgAux] at h
    | cons c rest =>
      rcases hm : matchImgAt (c :: rest) with _ | ⟨uo, url⟩
      · simp only [findImgAux, hm] at h
        have := ih h
        omega
      · simp only [findImgAux, hm] at h
        rw [List.mem_cons] at h
        rcases h with h | h
        · obtain ⟨pre, t, _, _, h10, _⟩ := matchImgAt_some_decomp hm
          subst h
          exact ⟨show pos + 10 ≤ pos + uo by omega, rfl⟩
        · have := ih h
          omega

theorem scanAux_zero (avail : List (List Char)) (s : List Char) (i : Nat) :
    scanAux avail 0 s i = s := rfl


theorem foldl_rStep_eq_scanAux (avail : List (List Char)) {fuel : Nat} :
    ∀ {s : List Char} (pos i : Nat) (P : List Char) (chs : List ChangeRecord),
      s.length ≤ fuel →
      (List.enumFrom i (findImgAux fuel s pos)).foldl (rStep avail)
          (P ++ s, (P.length : Int) - (pos : Int), chs)
        = (P ++ scanAux avail fuel s i,
           (P.length : Int) + ((scanAux avail fuel s i).length : Int)
             - ((pos : Int) + (s.length : Int)),
           chs ++ (List.enumFrom i (findImgAux fuel s pos)).map (mkRecord avail)) := by
  induction fuel with
  | zero =>
    intro s pos i P chs hle
    have hs : s = [] := List.length_eq_zero.mp (Nat.le_zero.mp hle)
    subst hs
    simp [findImgAux, scanAux]
  | succ fuel ih =>
    intro s pos i P chs hle
    cases s with
    | nil => simp [findImgAux, scanAux]
    | cons c rest =>
      rcases hm : matchImgAt (c :: rest) with _ | ⟨uo, url⟩
      · have h1 : findImgAux (fuel + 1) (c :: rest) pos = findImgAux fuel rest (pos + 1) := by
          simp only [findImgAux, hm]
        have h2 : scanAux avail (fuel + 1) (c :: rest) i = c :: scanAux avail fuel rest i := by
          simp only [scanAux, hm]
        have hlP : (P ++ [c]).length = P.length + 1 := by simp
        rw [h1, h2,
          show P ++ c :: rest = (P ++ [c]) ++ rest from by simp,
          show (P.length : Int) - (pos : Int)
              = ((P ++ [c]).length : Int) - ((pos + 1 : Nat) : Int) from by
            rw [hlP]; push_cast; ring]
        rw [ih (pos + 1) i (P ++ [c]) chs (by simpa using Nat.le_of_succ_le_succ hle)]
        congr 1
        · simp
        congr 1
        · rw [hlP]
          simp only [List.length_cons]
          push_cast
          ring
      · obtain ⟨pre, t, hs, hpre, h10, hurlne, hurlq, hlast, hrebuild⟩ := matchImgAt_some_decomp hm
        have h1 : findImgAux (fuel + 1) (c :: rest) pos
            = { urlStart := pos + uo, urlEnd := pos + uo + url.length, url := url } ::
              findImgAux fuel ((c :: rest).drop (uo + url.length + 1))
                (pos + uo + url.length + 1) := by
          simp only [findImgAux, hm]
        have hdrop : (c :: rest).drop (uo + url.length + 1) = t := by
          rw [hs, show pre ++ url ++ '"' :: t = (pre ++ url ++ ['"']) ++ t from by simp]
          exact List.drop_left' (by
            simp only [List.length_append, List.length_cons, List.length_nil, hpre]; try omega)
        have htake : (c :: rest).take uo = pre := by
          rw [hs, show pre ++ url ++ '"' :: t = pre ++ (url ++ '"' :: t) from by simp]
          exact List.take_left' hpre
        have hlen : (c :: rest).length = uo + url.length + 1 + t.length := by
          rw [hs]
          simp only [List.length_append, List.length_cons, hpre]
          omega
        have h2 : scanAux avail (fuel + 1) (c :: rest) i
            = pre ++
              (if avail.contains (expected_filename i) then expected_filename i else url) ++
              '"' :: scanAux avail fuel t (i + 1) := by
          simp only [scanAux, hm, htake, hdrop]
        have hfuel_t : t.length ≤ fuel := by
          have h' := hle; rw [hlen] at h'; omega
        rw [h1, hdrop, List.enumFrom_cons, List.foldl_cons]
        by_cases hc : avail.contains (expected_filename i)
        · have hc' : expected_filename i ∈ avail := by simpa using hc
          rw [if_pos hc] at h2
          have hstep : rStep avail (P ++ c :: rest, (P.length : Int) - (pos : Int), chs)
              (i, { urlStart := pos + uo, urlEnd := pos + uo + url.length, url := url })
              = ((P ++ pre ++ expected_filename i ++ ['"']) ++ t,
                 ((P ++ pre ++ expected_filename i ++ ['"']).length : Int)
                   - ((pos + uo + url.length + 1 : Nat) : Int),
                 chs ++ [{ index := i + 1, old_url := url, new_url := expected_filename i,
                           exists_ := true }]) := by
            have hstart : (((pos + uo : Nat) : Int) + ((P.length : Int) - (pos : Int))).toNat
                = P.length + uo := by omega
            have hstop : (((pos + uo + url.length : Nat) : Int)
                + ((P.length : Int) - (pos : Int))).toNat = P.length + uo + url.length := by
              omega
            have htk : (P ++ c :: rest).take (P.length + uo) = P ++ pre := by
              rw [hs, show P ++ (pre ++ url ++ '"' :: t) = (P ++ pre) ++ (url ++ '"' :: t) from by
                simp]
              exact List.take_left' (by simp [hpre])
            have hdr : (P ++ c :: rest).drop (P.length + uo + url.length) = '"' :: t := by
              rw [hs, show P ++ (pre ++ url ++ '"' :: t) = ((P ++ pre) ++ url) ++ ('"' :: t) from by
                simp]
              exact List.drop_left' (by
                simp only [List.length_append, List.length_cons, List.length_nil, hpre]
                try omega)
            simp only [rStep, hc, if_true, hstart, hstop, htk, hdr]
            congr 1
            · simp
            congr 1
            · simp only [List.length_append, List.length_cons, List.length_nil, hpre]
              push_cast
              ring
          rw [hstep,
            ih (pos + uo + url.length + 1) (i + 1)
              (P ++ pre ++ expected_filename i ++ ['"']) _ hfuel_t]
        
          congr 1
          · rw [h2]
            simp
          congr 1
          · rw [h2, hlen]
            simp only [List.length_append, List.length_cons, List.length_nil, hpre]
            push_cast
            ring
          · simp [mkRecord, hc, hc']
        · have hc' : expected_filename i ∉ avail := by simpa using hc
          rw [if_neg hc] at h2
          have hstep : rStep avail (P ++ c :: rest, (P.length : Int) - (pos : Int), chs)
              (i, { urlStart := pos + uo, urlEnd := pos + uo + url.length, url := url })
              = (P ++ c :: rest, (P.length : Int) - (pos : Int),
                 chs ++ [{ index := i + 1, old_url := url, new_url := expected_filename i,
                           exists_ := false }]) := by
            simp [rStep, hc']
          rw [hstep,
            show P ++ c :: rest = (P ++ pre ++ url ++ ['"']) ++ t from by rw [hs]; simp,
            show (P.length : Int) - (pos : Int)
                = ((P ++ pre ++ url ++ ['"']).length : Int)
                  - ((pos + uo + url.length + 1 : Nat) : Int) from by
              simp only [List.length_append, List.length_cons, List.length_nil, hpre]
              push_cast
              ring,
            ih (pos + uo + url.length + 1) (i + 1)
              (P ++ pre ++ url ++ ['"']) _ hfuel_t]
          congr 1
          · rw [h2]
            simp
          congr 1
          · rw [h2, hlen]
            simp only [List.length_append, List.length_cons, List.length_nil, hpre]
            push_cast
            ring
          · simp [mkRecord, hc, hc']

theorem replace_images_eq_scan (content : List Char) (avail : List (List Char)) :
    replace_images_in_content content avail
      = (scanAux avail content.length content 0,
         (List.enumFrom 0 (findImgMatches content 0)).map (mkRecord avail)) := by
  have key := foldl_rStep_eq_scanAux avail 0 0 [] [] (Nat.le_refl content.length)
  simp only [List.nil_append, List.length_nil, Nat.cast_zero, List.nil_append] at key
  norm_num at key
  unfold replace_images_in_content findImgMatches
  by_cases hms : findImgAux content.length content 0 = []
  · rw [hms] at key
    simp only [List.enumFrom_nil, List.foldl_nil, List.map_nil] at key
    have h1 : content = scanAux avail content.length content 0 := congrArg Prod.fst key
    simp only [hms, if_pos]
    rw [← h1]
    simp
  · simp only [hms, if_neg, if_false]
    have henum : (findImgAux content.length content 0).enum
        = List.enumFrom 0 (findImgAux content.length content 0) := rfl
    simp only [henum]
    rw [key]

theorem replace_fragment_eq (content : List Char) (avail : List (List Char)) :
    (replace_images_in_content content avail).1 = scanAux avail content.length content 0 := by
  rw [replace_images_eq_scan]

theorem replace_records_eq (content : List Char) (avail : List (List Char)) :
    (replace_images_in_content content avail).2
      = (List.enumFrom 0 (findImgMatches content 0)).map (mkRecord avail) := by
  rw [replace_images_eq_scan]

theorem enumFrom_length {α : Type} : ∀ (l : List α) (i : Nat),
    (List.enumFrom i l).length = l.length
  | [], _ => rfl
  | _ :: l, i => by simp [List.enumFrom_cons, enumFrom_length l (i + 1)]

theorem enumFrom_map_comp {β : Type} (f : Nat → β) (l : List ImgMatch) :
    (List.enumFrom 0 l).map (fun p => f p.1) = (List.range l.length).map f := by
  have h1 : (List.enumFrom 0 l).map (fun p => f p.1)
      = ((List.enumFrom 0 l).map Prod.fst).map f := by
    rw [List.map_map]; rfl
  rw [h1, List.enumFrom_map_fst, ← List.range_eq_range']

/-- C1: for every fragment text and every inventory, the Rewrite Engine
returns exactly one Change Record per `<img src="...">` occurrence, in the
left-to-right scan order; the record for 0-based scan position `i` has index
`i + 1`, `old_url` the captured URL, and `new_url` the filename
`image-(i+2).webp` (i.e. `expected_filename i`), regardless of whether that
file is in the inventory (only the `exists` flag depends on it). -/
theorem C1_one_record_per_occurrence (content : List Char) (avail : List (List Char)) :
    (replace_images_in_content content avail).2
      = (List.enumFrom 0 (findImgMatches content 0)).map
          (fun p => { index := p.1 + 1, old_url := p.2.url,
                      new_url := expected_filename p.1,
                      exists_ := avail.contains (expected_filename p.1) : ChangeRecord }) := by
  rw [replace_records_eq]
  rfl

/-- C2 counterexample: on the fragment `<img src="u">` (one occurrence, scan
position 0) the produced Change Record has `new_url = "image-2.webp"`, not
`"image-1.webp"` as the claim's formula `image-{i+1}.webp` would require. -/
theorem C2_counterexample :
    ((replace_images_in_content "<img src=\"u\">".toList []).2.map (fun r => r.new_url))
        = ["image-2.webp".toList]
      ∧ "image-2.webp".toList ≠ "image-1.webp".toList := by
  constructor
  · decide
  · decide

/-- C2 (amended): for any fragment with `k` `<img>` occurrences the Rewrite
Engine produces exactly `k` Change Records, indexed `1..k`, each with
`new_url = "image-{i+2}.webp"` for 0-based scan position `i` (the claim
stated `image-{i+1}.webp`; the code computes `image_index = i + 2`). -/
theorem C2_records_indexed (content : List Char) (avail : List (List Char)) :
    (replace_images_in_content content avail).2.length = (findImgMatches content 0).length
    ∧ (replace_images_in_content content avail).2.map (fun r => r.index)
        = (List.range (findImgMatches content 0).length).map (fun i => i + 1)
    ∧ (replace_images_in_content content avail).2.map (fun r => r.new_url)
        = (List.range (findImgMatches content 0).length).map (fun i => expected_filename i) := by
  rw [replace_records_eq]
  refine ⟨?_, ?_, ?_⟩
  · rw [List.length_map, enumFrom_length]
  · rw [List.map_map]
    exact enumFrom_map_comp (fun i => i + 1) _
  · rw [List.map_map]
    exact enumFrom_map_comp (fun i => expected_filename i) _

theorem snd_mem_of_mem_enumFrom {α : Type} {p : Nat × α} {i : Nat} {l : List α}
    (h : p ∈ List.enumFrom i l) : p.2 ∈ l := by
  obtain ⟨a, x⟩ := p
  obtain ⟨h1, h2, h3⟩ := List.mem_enumFrom h
  rw [h3]
  exact List.getElem_mem (by omega)

/-- Selective back-to-front splice over the URL spans of the enumerated
matches `l` (spans relative to `pos`): span `i` is replaced by
`expected_filename i` when that file is available and kept (re-spliced with
its own URL) otherwise. -/
def spliceSel (avail : List (List Char)) (pos : Nat) (content : List Char)
    (l : List (Nat × ImgMatch)) : List Char :=
  l.foldr (fun p c =>
    c.take (p.2.urlStart - pos) ++
      (if avail.contains (expected_filename p.1) then expected_filename p.1 else p.2.url) ++
      c.drop (p.2.urlEnd - pos)) content

/-- Splice in which every captured URL span is replaced by its expected
filename (applied back to front, so spans are in original coordinates). -/
def replaceSpans (content : List Char) (l : List (Nat × ImgMatch)) : List Char :=
  l.foldr (fun p c =>
    c.take p.2.urlStart ++ expected_filename p.1 ++ c.drop p.2.urlEnd) content

theorem spliceSel_append (avail : List (List Char)) (A : List Char) :
    ∀ (l : List (Nat × ImgMatch)) (rest : List Char) (pos : Nat),
      (∀ p ∈ l, pos + A.length ≤ p.2.urlStart ∧ p.2.urlStart ≤ p.2.urlEnd) →
      spliceSel avail pos (A ++ rest) l = A ++ spliceSel avail (pos + A.length) rest l := by
  intro l
  induction l with
  | nil => intro rest pos _; rfl
  | cons p l ih =>
    intro rest pos hspan
    have hp := hspan p (by simp)
    have hl : ∀ q ∈ l, pos + A.length ≤ q.2.urlStart ∧ q.2.urlStart ≤ q.2.urlEnd :=
      fun q hq => hspan q (List.mem_cons_of_mem _ hq)
    have hX := ih rest pos hl
    simp only [spliceSel] at hX ⊢
    simp only [List.foldr_cons]
    rw [hX]
    rw [List.take_append_eq_append_take, List.drop_append_eq_append_drop,
      List.take_of_length_le (by omega), List.drop_eq_nil_of_le (by omega),
      show p.2.urlStart - pos - A.length = p.2.urlStart - (pos + A.length) from by omega,
      show p.2.urlEnd - pos - A.length = p.2.urlEnd - (pos + A.length) from by omega]
    simp [List.append_assoc]

theorem spliceSel_cons (avail : List (List Char)) (pos : Nat) (content : List Char)
    (p : Nat × ImgMatch) (l : List (Nat × ImgMatch)) :
    spliceSel avail pos content (p :: l)
      = (spliceSel avail pos content l).take (p.2.urlStart - pos) ++
        (if avail.contains (expected_filename p.1) then expected_filename p.1 else p.2.url) ++
        (spliceSel avail pos content l).drop (p.2.urlEnd - pos) := rfl

theorem scanAux_eq_spliceSel (avail : List (List Char)) {fuel : Nat} :
    ∀ {s : List Char} (pos i : Nat), s.length ≤ fuel →
      scanAux avail fuel s i
        = spliceSel avail pos s (List.enumFrom i (findImgAux fuel s pos)) := by
  induction fuel with
  | zero =>
    intro s pos i hle
    have hs : s = [] := List.length_eq_zero.mp (Nat.le_zero.mp hle)
    subst hs
    rfl
  | succ fuel ih =>
    intro s pos i hle
    cases s with
    | nil => rfl
    | cons c rest =>
      rcases hm : matchImgAt (c :: rest) with _ | ⟨uo, url⟩
      · have h1 : findImgAux (fuel + 1) (c :: rest) pos = findImgAux fuel rest (pos + 1) := by
          simp only [findImgAux, hm]
        have h2 : scanAux avail (fuel + 1) (c :: rest) i = c :: scanAux avail fuel rest i := by
          simp only [scanAux, hm]
        have hspan : ∀ q ∈ List.enumFrom i (findImgAux fuel rest (pos + 1)),
            pos + ([c] : List Char).length ≤ q.2.urlStart ∧ q.2.urlStart ≤ q.2.urlEnd := by
          intro q hq
          have hq2 := findImgAux_mem (snd_mem_of_mem_enumFrom hq)
          simp only [List.length_cons, List.length_nil]
          omega
        rw [h1, h2, ih (pos + 1) i (by simpa using Nat.le_of_succ_le_succ hle),
          show (c :: rest : List Char) = [c] ++ rest from rfl,
          spliceSel_append avail [c] _ rest pos hspan]
        simp
      · obtain ⟨pre, t, hs, hpre, h10, hurlne, hurlq, hlast, hrebuild⟩ := matchImgAt_some_decomp hm
        have h1 : findImgAux (fuel + 1) (c :: rest) pos
            = { urlStart := pos + uo, urlEnd := pos + uo + url.length, url := url } ::
              findImgAux fuel ((c :: rest).drop (uo + url.length + 1))
                (pos + uo + url.length + 1) := by
          simp only [findImgAux, hm]
        have hdrop : (c :: rest).drop (uo + url.length + 1) = t := by
          rw [hs, show pre ++ url ++ '"' :: t = (pre ++ url ++ ['"']) ++ t from by simp]
          exact List.drop_left' (by
            simp only [List.length_append, List.length_cons, List.length_nil, hpre]; try omega)
        have htake : (c :: rest).take uo = pre := by
          rw [hs, show pre ++ url ++ '"' :: t = pre ++ (url ++ '"' :: t) from by simp]
          exact List.take_left' hpre
        have hlen : (c :: rest).length = uo + url.length + 1 + t.length := by
          rw [hs]
          simp only [List.length_append, List.length_cons, hpre]
          omega
        have hfuel_t : t.length ≤ fuel := by
          have h' := hle; rw [hlen] at h'; omega
        have h2 : scanAux avail (fuel + 1) (c :: rest) i
            = pre ++
              (if avail.contains (expected_filename i) then expected_filename i else url) ++
              '"' :: scanAux avail fuel t (i + 1) := by
          simp only [scanAux, hm, htake, hdrop]
        have hspan : ∀ q ∈ List.enumFrom (i + 1)
              (findImgAux fuel t (pos + uo + url.length + 1)),
            pos + ((pre ++ url ++ ['"'] : List Char)).length ≤ q.2.urlStart ∧
              q.2.urlStart ≤ q.2.urlEnd := by
          intro q hq
          have hq2 := findImgAux_mem (snd_mem_of_mem_enumFrom hq)
          simp only [List.length_append, List.length_cons, List.length_nil, hpre]
          omega
        have hA : (c :: rest : List Char) = (pre ++ url ++ ['"']) ++ t := by rw [hs]; simp
        rw [h1, hdrop, h2, List.enumFrom_cons, spliceSel_cons]
        have hinner := spliceSel_append avail (pre ++ url ++ ['"'])
          (List.enumFrom (i + 1) (findImgAux fuel t (pos + uo + url.length + 1))) t pos hspan
        rw [hA, hinner,
          show pos + ((pre ++ url ++ ['"'] : List Char)).length = pos + uo + url.length + 1 from by
            simp only [List.length_append, List.length_cons, List.length_nil, hpre]; omega,
          ← ih (pos + uo + url.length + 1) (i + 1) hfuel_t]
        dsimp only
        have htk2 : ((pre ++ url ++ ['"']) ++ scanAux avail fuel t (i + 1)).take (pos + uo - pos)
            = pre := by
          rw [show pos + uo - pos = uo from by omega,
            show (pre ++ url ++ ['"']) ++ scanAux avail fuel t (i + 1)
              = pre ++ (url ++ ['"'] ++ scanAux avail fuel t (i + 1)) from by simp]
          exact List.take_left' hpre
        have hdr2 : ((pre ++ url ++ ['"']) ++ scanAux avail fuel t (i + 1)).drop
            (pos + uo + url.length - pos)
            = '"' :: scanAux avail fuel t (i + 1) := by
          rw [show pos + uo + url.length - pos = uo + url.length from by omega,
            show (pre ++ url ++ ['"']) ++ scanAux avail fuel t (i + 1)
              = (pre ++ url) ++ ('"' :: scanAux avail fuel t (i + 1)) from by simp]
          exact List.drop_left' (by
            simp only [List.length_append, hpre])
        rw [htk2, hdr2]

theorem replaceSpans_cons (content : List Char) (p : Nat × ImgMatch)
    (l : List (Nat × ImgMatch)) :
    replaceSpans content (p :: l)
      = (replaceSpans content l).take p.2.urlStart ++ expected_filename p.1 ++
        (replaceSpans content l).drop p.2.urlEnd := rfl

theorem spliceSel_eq_replaceSpans (avail : List (List Char)) (content : List Char) :
    ∀ (l : List (Nat × ImgMatch)),
      (∀ p ∈ l, avail.contains (expected_filename p.1) = true) →
      spliceSel avail 0 content l = replaceSpans content l := by
  intro l
  induction l with
  | nil => intro _; rfl
  | cons p l ih =>
    intro h
    have hp := h p (by simp)
    rw [spliceSel_cons, replaceSpans_cons, ih (fun q hq => h q (List.mem_cons_of_mem _ hq)),
      if_pos hp]
    simp [Nat.sub_zero]

theorem scanAux_length (avail : List (List Char)) {fuel : Nat} :
    ∀ {s : List Char} (pos i : Nat), s.length ≤ fuel →
      (∀ p ∈ List.enumFrom i (findImgAux fuel s pos),
        avail.contains (expected_filename p.1) = true) →
      ((scanAux avail fuel s i).length : Int)
        = (s.length : Int)
          + ((List.enumFrom i (findImgAux fuel s pos)).map
              (fun p => ((expected_filename p.1).length : Int) - (p.2.url.length : Int))).sum := by
  induction fuel with
  | zero =>
    intro s pos i hle hall
    have hs : s = [] := List.length_eq_zero.mp (Nat.le_zero.mp hle)
    subst hs
    simp [findImgAux, scanAux]
  | succ fuel ih =>
    intro s pos i hle hall
    cases s with
    | nil => simp [findImgAux, scanAux]
    | cons c rest =>
      rcases hm : matchImgAt (c :: rest) with _ | ⟨uo, url⟩
      · have h1 : findImgAux (fuel + 1) (c :: rest) pos = findImgAux fuel rest (pos + 1) := by
          simp only [findImgAux, hm]
        have h2 : scanAux avail (fuel + 1) (c :: rest) i = c :: scanAux avail fuel rest i := by
          simp only [scanAux, hm]
        rw [h1] at hall ⊢
        rw [h2]
        have hrec := ih (pos + 1) i (by simpa using Nat.le_of_succ_le_succ hle) hall
        simp only [List.length_cons]
        push_cast
        rw [hrec]
        ring
      · obtain ⟨pre, t, hs, hpre, h10, hurlne, hurlq, hlast, hrebuild⟩ := matchImgAt_some_decomp hm
        have h1 : findImgAux (fuel + 1) (c :: rest) pos
            = { urlStart := pos + uo, urlEnd := pos + uo + url.length, url := url } ::
              findImgAux fuel ((c :: rest).drop (uo + url.length + 1))
                (pos + uo + url.length + 1) := by
          simp only [findImgAux, hm]
        have hdrop : (c :: rest).drop (uo + url.length + 1) = t := by
          rw [hs, show pre ++ url ++ '"' :: t = (pre ++ url ++ ['"']) ++ t from by simp]
          exact List.drop_left' (by
            simp only [List.length_append, List.length_cons, List.length_nil, hpre]; try omega)
        have htake : (c :: rest).take uo = pre := by
          rw [hs, show pre ++ url ++ '"' :: t = pre ++ (url ++ '"' :: t) from by simp]
          exact List.take_left' hpre
        have hlen : (c :: rest).length = uo + url.length + 1 + t.length := by
          rw [hs]
          simp only [List.length_append, List.length_cons, hpre]
          omega
        have hfuel_t : t.length ≤ fuel := by
          have h' := hle; rw [hlen] at h'; omega
        have h2 : scanAux avail (fuel + 1) (c :: rest) i
            = pre ++
              (if avail.contains (expected_filename i) then expected_filename i else url) ++
              '"' :: scanAux avail fuel t (i + 1) := by
          simp only [scanAux, hm, htake, hdrop]
        rw [h1, hdrop] at hall ⊢
        rw [List.enumFrom_cons] at hall ⊢
        have hc : avail.contains (expected_filename i) = true :=
          hall (i, { urlStart := pos + uo, urlEnd := pos + uo + url.length, url := url })
            (by simp)
        rw [if_pos hc] at h2
        have hrec := ih (pos + uo + url.length + 1) (i + 1) hfuel_t
          (fun p hp => hall p (List.mem_cons_of_mem _ hp))
        rw [h2, hlen]
        simp only [List.map_cons, List.sum_cons, List.length_append, List.length_cons,
          List.length_nil, hpre]
        push_cast
        rw [hrec]
        ring

theorem replace_fragment_spliceSel (content : List Char) (avail : List (List Char)) :
    (replace_images_in_content content avail).1
      = spliceSel avail 0 content (List.enumFrom 0 (findImgMatches content 0)) := by
  rw [replace_fragment_eq]
  exact scanAux_eq_spliceSel avail 0 0 (Nat.le_refl _)

/-- C3: for every fragment in which each expected filename `image-(i+2).webp`
is present in the inventory, the Rewrite Engine's output equals the fragment
with every captured URL span replaced by its expected filename (back-to-front
splice over the original spans), and the output length equals the input
length plus the sum over all Change Records of (length of `new_url` minus
length of `old_url`).  The running offset of the forward loop therefore
targets exactly the right positions. -/
theorem C3_all_present (content : List Char) (avail : List (List Char))
    (h : ∀ p ∈ List.enumFrom 0 (findImgMatches content 0),
      avail.contains (expected_filename p.1) = true) :
    (replace_images_in_content content avail).1
        = replaceSpans content (List.enumFrom 0 (findImgMatches content 0))
    ∧ ((replace_images_in_content content avail).1.length : Int)
        = (content.length : Int)
          + ((replace_images_in_content content avail).2.map
              (fun r => (r.new_url.length : Int) - (r.old_url.length : Int))).sum := by
  constructor
  · rw [replace_fragment_spliceSel]
    exact spliceSel_eq_replaceSpans avail content _ h
  · rw [replace_fragment_eq, replace_records_eq, List.map_map]
    have hkey := scanAux_length avail 0 0 (Nat.le_refl content.length) h
    rw [hkey]
    rfl

theorem C3_all_present_witness :
    (∀ p ∈ List.enumFrom 0 (findImgMatches "<img src=\"u\"> <img src=\"vv\">".toList 0),
      (["image-2.webp".toList, "image-3.webp".toList]).contains (expected_filename p.1) = true)
    ∧ ((replace_images_in_content "<img src=\"u\"> <img src=\"vv\">".toList
          ["image-2.webp".toList, "image-3.webp".toList]).1
          = replaceSpans "<img src=\"u\"> <img src=\"vv\">".toList
              (List.enumFrom 0 (findImgMatches "<img src=\"u\"> <img src=\"vv\">".toList 0))
        ∧ ((replace_images_in_content "<img src=\"u\"> <img src=\"vv\">".toList
              ["image-2.webp".toList, "image-3.webp".toList]).1.length : Int)
            = (("<img src=\"u\"> <img src=\"vv\">".toList).length : Int)
              + ((replace_images_in_content "<img src=\"u\"> <img src=\"vv\">".toList
                  ["image-2.webp".toList, "image-3.webp".toList]).2.map
                  (fun r => (r.new_url.length : Int) - (r.old_url.length : Int))).sum) :=
  ⟨by decide, C3_all_present _ _ (by decide)⟩

/-- C10: the Rewrite Engine counts and rewrites only occurrences of the exact
shape `<img` + whitespace + `src="..."` with a double-quoted non-empty value
as the first attribute: an img tag whose src is preceded by another attribute
or uses single quotes yields no Change Record and is never modified, while a
plain `<img src="...">` yields exactly one record, whatever the inventory. -/
theorem C10_pattern_shape (avail : List (List Char)) :
    replace_images_in_content "<img class=\"x\" src=\"https://e.com/a.jpg\">".toList avail
        = ("<img class=\"x\" src=\"https://e.com/a.jpg\">".toList, [])
    ∧ replace_images_in_content "<img src='https://e.com/a.jpg'>".toList avail
        = ("<img src='https://e.com/a.jpg'>".toList, [])
    ∧ ((replace_images_in_content "<img src=\"https://e.com/a.jpg\">".toList avail).2).length
        = 1 := by
  refine ⟨?_, ?_, ?_⟩
  · have h : findImgMatches "<img class=\"x\" src=\"https://e.com/a.jpg\">".toList 0 = [] := by
      decide
    simp only [replace_images_in_content]
    rw [if_pos h]
  · have h : findImgMatches "<img src='https://e.com/a.jpg'>".toList 0 = [] := by decide
    simp only [replace_images_in_content]
    rw [if_pos h]
  · rw [replace_records_eq, List.length_map, enumFrom_length]
    decide

theorem isWs_ne_quote {c : Char} (h : isWs c = true) : (c == '"') = false := by
  unfold isWs at h
  simp only [Bool.or_eq_true, beq_iff_eq] at h
  rcases h with ((((h | h) | h) | h) | h) | h <;> subst h <;> decide

theorem expected_filename_ne_nil (i : Nat) : expected_filename i ≠ [] := by
  unfold expected_filename
  simp

theorem expected_filename_quotefree (i : Nat) :
    ∀ c ∈ expected_filename i, (c == '"') = false := by
  intro c hc
  unfold expected_filename at hc
  rcases List.mem_append.mp hc with hc | hc
  · rcases List.mem_append.mp hc with hc | hc
    · have hc' : c ∈ ['i', 'm', 'a', 'g', 'e', '-'] := by simpa using hc
      fin_cases hc' <;> decide
    · obtain ⟨d, hd, rfl⟩ := natChars_digits hc
      exact digitChar_ne_quote hd
  · have hc' : c ∈ ['.', 'w', 'e', 'b', 'p'] := by simpa using hc
    fin_cases hc' <;> decide

theorem ite_url_props (avail : List (List Char)) (i : Nat) {url : List Char}
    (hne : url ≠ []) (hq : ∀ c ∈ url, (c == '"') = false) :
    (if avail.contains (expected_filename i) then expected_filename i else url) ≠ [] ∧
      ∀ c ∈ (if avail.contains (expected_filename i) then expected_filename i else url),
        (c == '"') = false := by
  by_cases hc : avail.contains (expected_filename i)
  · rw [if_pos hc]
    exact ⟨expected_filename_ne_nil i, expected_filename_quotefree i⟩
  · rw [if_neg hc]
    exact ⟨hne, hq⟩

theorem quote_positions {A B : List Char} {j : Nat}
    (hA : ∀ c ∈ A, (c == '"') = false) (hB : ∀ c ∈ B, (c == '"') = false)
    (hj : (A ++ '"' :: B ++ ['"'])[j]? = some '"') :
    j = A.length ∨ j = A.length + B.length + 1 := by
  rw [List.getElem?_append] at hj
  by_cases h0 : j < (A ++ '"' :: B).length
  · rw [if_pos h0] at hj
    rw [List.getElem?_append] at hj
    by_cases h1 : j < A.length
    · rw [if_pos h1] at hj
      have := hA '"' (List.getElem?_mem hj)
      simp at this
    · rw [if_neg h1] at hj
      push_neg at h1
      rcases hk : j - A.length with _ | k
      · left; omega
      · rw [hk, List.getElem?_cons_succ] at hj
        have := hB '"' (List.getElem?_mem hj)
        simp at this
  · rw [if_neg h0] at hj
    push_neg at h0
    have hL : (A ++ '"' :: B).length = A.length + B.length + 1 := by
      simp
      omega
    rcases hk : j - (A ++ '"' :: B).length with _ | k
    · right; omega
    · rw [hk, List.getElem?_cons_succ] at hj
      simp at hj

theorem quotefree_cancel {u1 u2 T t' : List Char}
    (h1 : ∀ c ∈ u1, (c == '"') = false) (h2 : ∀ c ∈ u2, (c == '"') = false)
    (h : u1 ++ '"' :: T = u2 ++ '"' :: t') : u1 = u2 ∧ T = t' := by
  have htw1 := takeWhile_app (p := fun c => !(c == '"')) (A := u1) (b := '"') (B := T)
    (fun c hc => by simp [h1 c hc]) (by decide)
  have htw2 := takeWhile_app (p := fun c => !(c == '"')) (A := u2) (b := '"') (B := t')
    (fun c hc => by simp [h2 c hc]) (by decide)
  have hu : u1 = u2 := by rw [← htw1.1, h, htw2.1]
  refine ⟨hu, ?_⟩
  subst hu
  have := List.append_cancel_left h
  simpa using this

theorem matchImgAt_swap {Q T u1 u2 : List Char}
    (hQ : Q.getLast? = some '"')
    (hu1 : u1 ≠ []) (hu1q : ∀ c ∈ u1, (c == '"') = false)
    (hu2 : u2 ≠ []) (hu2q : ∀ c ∈ u2, (c == '"') = false)
    (hnone : matchImgAt (Q ++ u1 ++ '"' :: T) = none) :
    matchImgAt (Q ++ u2 ++ '"' :: T) = none := by
  rcases ho : matchImgAt (Q ++ u2 ++ '"' :: T) with _ | ⟨uo, U⟩
  · rfl
  exfalso
  obtain ⟨ws, t', hdec, hws, hwsAll, hU, hUq, huo⟩ := matchImgAt_eq_some.mp ho
  have hdec' : Q ++ (u2 ++ '"' :: T) = (litImg ++ ws ++ litSrc ++ U ++ ['"']) ++ t' := by
    rw [show Q ++ (u2 ++ '"' :: T) = Q ++ u2 ++ '"' :: T from by simp, hdec]
    simp [List.append_assoc]
  by_cases hlen : (litImg ++ ws ++ litSrc ++ U ++ ['"'] : List Char).length ≤ Q.length
  · have hQM : Q.take (litImg ++ ws ++ litSrc ++ U ++ ['"'] : List Char).length
        = litImg ++ ws ++ litSrc ++ U ++ ['"'] := by
      have h1 := congrArg (List.take (litImg ++ ws ++ litSrc ++ U ++ ['"'] : List Char).length) hdec'
      rw [List.take_append_eq_append_take, Nat.sub_eq_zero_of_le hlen] at h1
      rw [List.take_left] at h1
      simpa using h1
    have hQsplit : Q = (litImg ++ ws ++ litSrc ++ U ++ ['"']) ++
        Q.drop (litImg ++ ws ++ litSrc ++ U ++ ['"'] : List Char).length := by
      conv_lhs => rw [← List.take_append_drop (litImg ++ ws ++ litSrc ++ U ++ ['"'] : List Char).length Q]
      rw [hQM]
    have hbuild : matchImgAt (Q ++ u1 ++ '"' :: T) = some (9 + ws.length, U) := by
      rw [show Q ++ u1 ++ '"' :: T
          = litImg ++ ws ++ litSrc ++ U ++ '"' ::
            (Q.drop (litImg ++ ws ++ litSrc ++ U ++ ['"'] : List Char).length ++ u1 ++ '"' :: T) from by
        conv_lhs => rw [hQsplit]
        simp [List.append_assoc]]
      exact matchImgAt_build hws hwsAll hU hUq
    rw [hbuild] at hnone
    simp at hnone
  · push_neg at hlen
    have hQne : Q ≠ [] := by
      intro h
      rw [h] at hQ
      simp at hQ
    have hQpos : 0 < Q.length := List.length_pos.mpr hQne
    have hchar : (Q ++ (u2 ++ '"' :: T))[Q.length - 1]? = some '"' := by
      rw [List.getElem?_append, if_pos (by omega), ← List.getLast?_eq_getElem?]
      exact hQ
    rw [hdec', List.getElem?_append, if_pos (by omega)] at hchar
    have hMform : (litImg ++ ws ++ litSrc ++ U ++ ['"'] : List Char)
        = (litImg ++ ws ++ ['s', 'r', 'c', '=']) ++ '"' :: U ++ ['"'] := by
      simp [litSrc, List.append_assoc]
    have hAq : ∀ c ∈ (litImg ++ ws ++ ['s', 'r', 'c', '='] : List Char), (c == '"') = false := by
      intro c hc
      rcases List.mem_append.mp hc with hc | hc
      · rcases List.mem_append.mp hc with hc | hc
        · have hc' : c ∈ ['<', 'i', 'm', 'g'] := by simpa [litImg] using hc
          fin_cases hc' <;> decide
        · exact isWs_ne_quote (hwsAll c hc)
      · fin_cases hc <;> decide
    rw [hMform] at hchar
    have hpos := quote_positions hAq hUq hchar
    have hAlen : (litImg ++ ws ++ ['s', 'r', 'c', '='] : List Char).length = 8 + ws.length := by
      simp [litImg]
      omega
    have hMlen : (litImg ++ ws ++ litSrc ++ U ++ ['"'] : List Char).length
        = 10 + ws.length + U.length := by
      simp [litImg, litSrc]
      omega
    rcases hpos with hpos | hpos
    · have hQlen : Q.length = 9 + ws.length := by omega
      have hQeq2 : Q = litImg ++ ws ++ litSrc := by
        have h1 := congrArg (List.take Q.length) hdec'
        rw [List.take_append_eq_append_take, Nat.sub_self, List.take_length, List.take_zero,
          List.append_nil] at h1
        rw [show (litImg ++ ws ++ litSrc ++ U ++ ['"']) ++ t'
            = (litImg ++ ws ++ litSrc) ++ (U ++ ['"'] ++ t') from by simp [List.append_assoc]] at h1
        rw [List.take_append_eq_append_take] at h1
        rw [show Q.length - (litImg ++ ws ++ litSrc : List Char).length = 0 from by
            simp [litImg, litSrc]; try omega,
          List.take_zero, List.append_nil,
          List.take_of_length_le (by simp [litImg, litSrc]; try omega)] at h1
        exact h1
      have hrem : u2 ++ '"' :: T = U ++ '"' :: t' := by
        have h1 := hdec'
        rw [hQeq2] at h1
        rw [show (litImg ++ ws ++ litSrc ++ U ++ ['"']) ++ t'
            = (litImg ++ ws ++ litSrc) ++ (U ++ '"' :: t') from by simp [List.append_assoc]] at h1
        rw [show (litImg ++ ws ++ litSrc : List Char) ++ (u2 ++ '"' :: T)
            = (litImg ++ ws ++ litSrc) ++ (u2 ++ '"' :: T) from rfl] at h1
        exact List.append_cancel_left h1
      obtain ⟨hu2U, hTt⟩ := quotefree_cancel hu2q hUq hrem
      have hbuild : matchImgAt (Q ++ u1 ++ '"' :: T) = some (9 + ws.length, u1) := by
        rw [show Q ++ u1 ++ '"' :: T = litImg ++ ws ++ litSrc ++ u1 ++ '"' :: T from by
          rw [hQeq2]]
        exact matchImgAt_build hws hwsAll hu1 hu1q
      rw [hbuild] at hnone
      simp at hnone
    · omega

theorem matchImgAt_none_scanAux (avail : List (List Char)) {fuel : Nat} :
    ∀ {s : List Char} (i : Nat) (P : List Char), s.length ≤ fuel →
      matchImgAt (P ++ s) = none →
      matchImgAt (P ++ scanAux avail fuel s i) = none := by
  induction fuel with
  | zero =>
    intro s i P hle h
    exact h
  | succ fuel ih =>
    intro s i P hle h
    cases s with
    | nil => simpa [scanAux] using h
    | cons c rest =>
      rcases hm : matchImgAt (c :: rest) with _ | ⟨uo, url⟩
      · have h2 : scanAux avail (fuel + 1) (c :: rest) i = c :: scanAux avail fuel rest i := by
          simp only [scanAux, hm]
        rw [h2,
          show P ++ c :: scanAux avail fuel rest i = (P ++ [c]) ++ scanAux avail fuel rest i from by
            simp]
        apply ih i (P ++ [c]) (by simpa using Nat.le_of_succ_le_succ hle)
        rw [show (P ++ [c]) ++ rest = P ++ c :: rest from by simp]
        exact h
      · obtain ⟨pre, t, hs, hpre, h10, hurlne, hurlq, hlast, hrebuild⟩ := matchImgAt_some_decomp hm
        have hdrop : (c :: rest).drop (uo + url.length + 1) = t := by
          rw [hs, show pre ++ url ++ '"' :: t = (pre ++ url ++ ['"']) ++ t from by simp]
          exact List.drop_left' (by
            simp only [List.length_append, List.length_cons, List.length_nil, hpre]; try omega)
        have htake : (c :: rest).take uo = pre := by
          rw [hs, show pre ++ url ++ '"' :: t = pre ++ (url ++ '"' :: t) from by simp]
          exact List.take_left' hpre
        have hlen : (c :: rest).length = uo + url.length + 1 + t.length := by
          rw [hs]
          simp only [List.length_append, List.length_cons, hpre]
          omega
        have hfuel_t : t.length ≤ fuel := by
          have h' := hle; rw [hlen] at h'; omega
        have h2 : scanAux avail (fuel + 1) (c :: rest) i
            = pre ++
              (if avail.contains (expected_filename i) then expected_filename i else url) ++
              '"' :: scanAux avail fuel t (i + 1) := by
          simp only [scanAux, hm, htake, hdrop]
        have hu' := ite_url_props avail i hurlne hurlq
        have hQlast : (P ++ pre).getLast? = some '"' := by
          rw [List.getLast?_append, hlast]
          rfl
        have hswap : matchImgAt ((P ++ pre) ++
            (if avail.contains (expected_filename i) then expected_filename i else url) ++
            '"' :: t) = none := by
          apply matchImgAt_swap hQlast hurlne hurlq hu'.1 hu'.2
          rw [show (P ++ pre) ++ url ++ '"' :: t = P ++ (pre ++ url ++ '"' :: t) from by simp,
            ← hs]
          exact h
        have hrec := ih (i + 1)
          (P ++ pre ++
            (if avail.contains (expected_filename i) then expected_filename i else url) ++ ['"'])
          hfuel_t
          (by
            rw [show (P ++ pre ++
                (if avail.contains (expected_filename i) then expected_filename i else url) ++
                ['"']) ++ t
              = (P ++ pre) ++
                (if avail.contains (expected_filename i) then expected_filename i else url) ++
                '"' :: t from by simp]
            exact hswap)
        rw [h2]
        rw [show P ++ (pre ++
            (if avail.contains (expected_filename i) then expected_filename i else url) ++
            '"' :: scanAux avail fuel t (i + 1))
          = (P ++ pre ++
              (if avail.contains (expected_filename i) then expected_filename i else url) ++
              ['"']) ++ scanAux avail fuel t (i + 1) from by simp]
        exact hrec

theorem scanAux_idem (avail : List (List Char)) {fuel1 : Nat} :
    ∀ {s : List Char} (i : Nat) (fuel2 : Nat), s.length ≤ fuel1 →
      (scanAux avail fuel1 s i).length ≤ fuel2 →
      scanAux avail fuel2 (scanAux avail fuel1 s i) i = scanAux avail fuel1 s i := by
  induction fuel1 with
  | zero =>
    intro s i fuel2 hle hle2
    have hs : s = [] := List.length_eq_zero.mp (Nat.le_zero.mp hle)
    subst hs
    cases fuel2 <;> rfl
  | succ fuel1 ih =>
    intro s i fuel2 hle hle2
    cases s with
    | nil => cases fuel2 <;> rfl
    | cons c rest =>
      rcases hm : matchImgAt (c :: rest) with _ | ⟨uo, url⟩
      · have h2 : scanAux avail (fuel1 + 1) (c :: rest) i = c :: scanAux avail fuel1 rest i := by
          simp only [scanAux, hm]
        rw [h2] at hle2 ⊢
        have hnone : matchImgAt (c :: scanAux avail fuel1 rest i) = none := by
          have := matchImgAt_none_scanAux avail i [c]
            (by simpa using Nat.le_of_succ_le_succ hle)
            (show matchImgAt ([c] ++ rest) = none from by simpa using hm)
          simpa using this
        cases fuel2 with
        | zero => rfl
        | succ fuel2 =>
          have h3 : scanAux avail (fuel2 + 1) (c :: scanAux avail fuel1 rest i) i
              = c :: scanAux avail fuel2 (scanAux avail fuel1 rest i) i := by
            simp only [scanAux, hnone]
          rw [h3, ih i fuel2 (by simpa using Nat.le_of_succ_le_succ hle)
            (by simpa using Nat.le_of_succ_le_succ hle2)]
      · obtain ⟨pre, t, hs, hpre, h10, hurlne, hurlq, hlast, hrebuild⟩ := matchImgAt_some_decomp hm
        have hdrop : (c :: rest).drop (uo + url.length + 1) = t := by
          rw [hs, show pre ++ url ++ '"' :: t = (pre ++ url ++ ['"']) ++ t from by simp]
          exact List.drop_left' (by
            simp only [List.length_append, List.length_cons, List.length_nil, hpre]; try omega)
        have htake : (c :: rest).take uo = pre := by
          rw [hs, show pre ++ url ++ '"' :: t = pre ++ (url ++ '"' :: t) from by simp]
          exact List.take_left' hpre
        have hlen : (c :: rest).length = uo + url.length + 1 + t.length := by
          rw [hs]
          simp only [List.length_append, List.length_cons, hpre]
          omega
        have hfuel_t : t.length ≤ fuel1 := by
          have h' := hle; rw [hlen] at h'; omega
        have h2 : scanAux avail (fuel1 + 1) (c :: rest) i
            = pre ++
              (if avail.contains (expected_filename i) then expected_filename i else url) ++
              '"' :: scanAux avail fuel1 t (i + 1) := by
          simp only [scanAux, hm, htake, hdrop]
        have hu' := ite_url_props avail i hurlne hurlq
        rw [h2] at hle2 ⊢
        set url' := if avail.contains (expected_filename i) then expected_filename i else url
          with hurl'
        set T' := scanAux avail fuel1 t (i + 1) with hT'
        have hm2 : matchImgAt (pre ++ url' ++ '"' :: T') = some (uo, url') :=
          hrebuild url' T' hu'.1 hu'.2
        have hpre_ne : pre ≠ [] := by
          intro hh
          rw [hh] at hpre
          simp at hpre
          omega
        rcases hpc : pre with _ | ⟨p0, ptl⟩
        · exact absurd hpc hpre_ne
        cases fuel2 with
        | zero =>
          exfalso
          rw [hpc] at hle2
          simp at hle2
        | succ fuel2 =>
          have hconv : pre ++ url' ++ '"' :: T' = p0 :: (ptl ++ url' ++ '"' :: T') := by
            rw [hpc]
            simp
          have hm2' : matchImgAt (p0 :: (ptl ++ url' ++ '"' :: T')) = some (uo, url') := by
            rw [← hconv]
            exact hm2
          have h4 : scanAux avail (fuel2 + 1) (p0 :: (ptl ++ url' ++ '"' :: T')) i
              = (p0 :: (ptl ++ url' ++ '"' :: T')).take uo ++
                (if avail.contains (expected_filename i) then expected_filename i else url') ++
                '"' :: scanAux avail fuel2
                  ((p0 :: (ptl ++ url' ++ '"' :: T')).drop (uo + url'.length + 1)) (i + 1) := by
            simp only [scanAux, hm2']
          have htk3 : (p0 :: (ptl ++ url' ++ '"' :: T')).take uo = pre := by
            rw [← hconv, show pre ++ url' ++ '"' :: T' = pre ++ (url' ++ '"' :: T') from by simp]
            exact List.take_left' hpre
          have hdr3 : (p0 :: (ptl ++ url' ++ '"' :: T')).drop (uo + url'.length + 1) = T' := by
            rw [← hconv, show pre ++ url' ++ '"' :: T' = (pre ++ url' ++ ['"']) ++ T' from by simp]
            exact List.drop_left' (by
              simp only [List.length_append, List.length_cons, List.length_nil, hpre]; try omega)
          have hurl'' : (if avail.contains (expected_filename i) then expected_filename i
              else url') = url' := by
            by_cases hc : avail.contains (expected_filename i)
            · rw [if_pos hc, hurl', if_pos hc]
            · rw [if_neg hc]
          have hT'len : T'.length ≤ fuel2 := by
            rw [hpc] at hle2
            simp only [List.length_append, List.length_cons] at hle2
            omega
          rw [← hpc, hconv, h4, htk3, hdr3, hurl'', ih (i + 1) fuel2 hfuel_t hT'len, hconv]

/-- C6: the Rewrite Engine is idempotent on fragments: applying it to its own
output fragment with the same inventory returns that fragment unchanged.  In
particular an occurrence whose URL already equals the expected filename is
rescanned like any other URL and its replacement is a no-op string swap. -/
theorem C6_engine_idempotent (content : List Char) (avail : List (List Char)) :
    (replace_images_in_content ((replace_images_in_content content avail).1) avail).1
      = (replace_images_in_content content avail).1 := by
  have hinner : (replace_images_in_content content avail).1
      = scanAux avail content.length content 0 := replace_fragment_eq content avail
  rw [hinner, replace_fragment_eq]
  exact scanAux_idem avail 0 _ (Nat.le_refl _) (Nat.le_refl _)

/-- Opening marker `<div class="content">` of the Content Extractor regex
`(<div class="content">)(.*?)(</div>\s*</body>)` (21 characters, so group 2
starts 21 positions after the match start). -/
def openTagChars : List Char := "<div class=\"content\">".toList

/-- Tests whether the closing boundary `</div>\s*</body>` of the extractor
regex matches at the head of `s` (the greedy `\s*` must be followed by
`</body>`, which starts with a non-whitespace character, so the maximal
whitespace run is the only candidate). -/
def closesAt (s : List Char) : Bool :=
  match dropLit "</div>".toList s with
  | none => false
  | some r => (dropLit "</body>".toList (r.dropWhile isWs)).isSome

/-- Index (from `pos`) of the first suffix of `s` satisfying `p`: the
leftmost-match rule of `re.search`. -/
def findFirstIdx (p : List Char → Bool) : List Char → Nat → Option Nat
  | [], _ => none
  | l@(_ :: rest), pos => if p l then some pos else findFirstIdx p rest (pos + 1)

theorem findFirstIdx_some {p : List Char → Bool} {s : List Char} :
    ∀ {pos q : Nat}, findFirstIdx p s pos = some q →
      pos ≤ q ∧ q < pos + s.length ∧ p (s.drop (q - pos)) = true ∧
        ∀ j, pos ≤ j → j < q → p (s.drop (j - pos)) = false := by
  induction s with
  | nil => intro pos q h; simp [findFirstIdx] at h
  | cons c rest ih =>
    intro pos q h
    by_cases hp : p (c :: rest) = true
    · rw [findFirstIdx, if_pos hp] at h
      have hq : q = pos := by simpa using h.symm
      subst hq
      refine ⟨Nat.le_refl _, by simp, by simpa using hp, ?_⟩
      intro j h1 h2
      omega
    · rw [findFirstIdx, if_neg hp] at h
      obtain ⟨h1, h2, h3, h4⟩ := ih h
      refine ⟨by omega, by simp; omega, ?_, ?_⟩
      · rw [show q - pos = (q - (pos + 1)) + 1 from by omega, List.drop_succ_cons]
        exact h3
      · intro j hj1 hj2
        rcases Nat.eq_or_lt_of_le hj1 with hj | hj
        · rw [← hj, Nat.sub_self, List.drop_zero]
          simpa using hp
        · rw [show j - pos = (j - (pos + 1)) + 1 from by omega, List.drop_succ_cons]
          exact h4 j (by omega) hj2

theorem findFirstIdx_none {p : List Char → Bool} {s : List Char} :
    ∀ {pos : Nat}, findFirstIdx p s pos = none →
      ∀ j, j < s.length → p (s.drop j) = false := by
  induction s with
  | nil => intro pos _ j hj; simp at hj
  | cons c rest ih =>
    intro pos h j hj
    by_cases hp : p (c :: rest) = true
    · rw [findFirstIdx, if_pos hp] at h
      simp at h
    · rw [findFirstIdx, if_neg hp] at h
      rcases j with _ | j
      · simpa using hp
      · rw [List.drop_succ_cons]
        exact ih h j (by simpa using hj)

/-- The Content Extractor `extract_content_section(html)`: the first position
where the opening `<div class="content">` matches, then the first subsequent
position where `</div>\s*</body>` matches, delimit the captured group 2; on
success returns `(match.start(2), match.end(2), match.group(2))`, otherwise
the sentinel `(-1, -1, "")`. -/
def extract_content_section (html : List Char) : Int × Int × List Char :=
  match findFirstIdx (fun s => (dropLit openTagChars s).isSome) html 0 with
  | none => (-1, -1, [])
  | some p =>
      match findFirstIdx closesAt (html.drop (p + 21)) (p + 21) with
      | none => (-1, -1, [])
      | some q => (((p + 21 : Nat) : Int), ((q : Nat) : Int),
          (html.drop (p + 21)).take (q - (p + 21)))

/-- Article Result: the fields of the result dict built by `process_article`
that the claims are about (the constant `folder`/`path` name strings carry no
logic and are omitted). -/
structure ArticleResult where
  changes : List ChangeRecord
  errors : List (List Char)
  images_in_html : Nat
  images_available : Nat
deriving DecidableEq

/-- Python `str` of a list of strings, as the f-string
`{[c['new_url'] for c in missing]}` prints it: `['a', 'b']` with
single-quoted elements (the filenames contain no quotes). -/
def pyReprList (l : List (List Char)) : List Char :=
  '[' :: List.intercalate ", ".toList (l.map (fun s => Char.ofNat 39 :: s ++ [Char.ofNat 39]))
    ++ [']']

/-- Article-level error string
`f"{len(missing)} immagini mancanti: {[c['new_url'] for c in missing]}"`. -/
def missing_error (missing : List ChangeRecord) : List Char :=
  natChars missing.length ++ " immagini mancanti: ".toList
    ++ pyReprList (missing.map (fun c => c.new_url))

/-- The Article Processor `process_article` on one article: the file read and
directory listing are abstracted into the `html` text and `available_images`
listing; the optional write is returned as the second component instead of
being performed.  Mirrors the source line by line: extract the `.content`
section (error and early return on the -1 sentinel), rewrite the images,
append the missing-images summary error when some record has
`exists == False`, and splice/write the new document when not in dry-run mode
and the change list is non-empty. -/
def process_article (html : List Char) (available_images : List (List Char)) (dry_run : Bool) :
    ArticleResult × Option (List Char) :=
  let images_available := available_images.length
  match extract_content_section html with
  | (start, end_, content) =>
    if start = -1 then
      ({ changes := [], errors := ["Sezione .content non trovata".toList],
         images_in_html := 0, images_available := images_available }, none)
    else
      let rc := replace_images_in_content content available_images
      let images_with_files := (rc.2.filter (fun c => c.exists_)).length
      let errors :=
        if images_with_files ≠ rc.2.length then
          [missing_error (rc.2.filter (fun c => !c.exists_))]
        else []
      let written :=
        if ¬dry_run ∧ rc.2 ≠ [] then
          some (html.take start.toNat ++ rc.1 ++ html.drop end_.toNat)
        else none
      ({ changes := rc.2, errors := errors, images_in_html := rc.2.length,
         images_available := images_available }, written)

theorem extract_sentinel {html : List Char}
    (h : (extract_content_section html).1 = -1) :
    extract_content_section html = (-1, -1, []) := by
  rcases h1 : findFirstIdx (fun s => (dropLit openTagChars s).isSome) html 0 with _ | p
  · simp only [extract_content_section, h1]
  · rcases h2 : findFirstIdx closesAt (html.drop (p + 21)) (p + 21) with _ | q
    · simp only [extract_content_section, h1, h2]
    · exfalso
      rw [show extract_content_section html
          = (((p + 21 : Nat) : Int), ((q : Nat) : Int),
             (html.drop (p + 21)).take (q - (p + 21))) from by
        simp only [extract_content_section, h1, h2]] at h
      have h' : ((p + 21 : Nat) : Int) = -1 := h
      omega

theorem extract_found {html : List Char} (h : (extract_content_section html).1 ≠ -1) :
    ∃ p q : Nat,
      findFirstIdx (fun s => (dropLit openTagChars s).isSome) html 0 = some p ∧
      findFirstIdx closesAt (html.drop (p + 21)) (p + 21) = some q ∧
      extract_content_section html
        = (((p + 21 : Nat) : Int), ((q : Nat) : Int), (html.drop (p + 21)).take (q - (p + 21))) ∧
      p + 21 ≤ q ∧ q ≤ html.length := by
  rcases h1 : findFirstIdx (fun s => (dropLit openTagChars s).isSome) html 0 with _ | p
  · exfalso; exact h (by simp [extract_content_section, h1])
  rcases h2 : findFirstIdx closesAt (html.drop (p + 21)) (p + 21) with _ | q
  · exfalso; exact h (by simp [extract_content_section, h1, h2])
  obtain ⟨hq1, hq2, _, _⟩ := findFirstIdx_some h2
  have hld := List.length_drop (p + 21) html
  refine ⟨p, q, rfl, h2, ?_, hq1, by omega⟩
  simp only [extract_content_section, h1, h2]

/-- C7: the Content Extractor returns the span and text of the captured
middle group of the first occurrence of `<div class="content">` followed
(lazily) by any content, then `</div>`, optional whitespace, `</body>`: the
opening tag is at the first position where it matches and the fragment runs
to the first following position where the closing boundary matches.  When no
such occurrence exists it returns start = end = -1 with empty text, and the
Article Processor records the single error "Sezione .content non trovata",
produces no Change Records and writes nothing (processing just returns). -/
theorem C7_content_extraction (html : List Char) (avail : List (List Char)) (d : Bool) :
    ((extract_content_section html).1 = -1 →
      extract_content_section html = (-1, -1, []) ∧
      (process_article html avail d).1.errors = ["Sezione .content non trovata".toList] ∧
      (process_article html avail d).1.changes = [] ∧
      (process_article html avail d).2 = none)
    ∧ ((extract_content_section html).1 ≠ -1 →
      ∃ p q : Nat,
        extract_content_section html
          = (((p + 21 : Nat) : Int), ((q : Nat) : Int),
             (html.drop (p + 21)).take (q - (p + 21))) ∧
        (dropLit openTagChars (html.drop p)).isSome = true ∧
        (∀ j, j < p → (dropLit openTagChars (html.drop j)).isSome = false) ∧
        p + 21 ≤ q ∧ q ≤ html.length ∧
        closesAt (html.drop q) = true ∧
        ∀ j, p + 21 ≤ j → j < q → closesAt (html.drop j) = false) := by
  constructor
  · intro h
    have hE := extract_sentinel h
    refine ⟨hE, ?_, ?_, ?_⟩ <;> simp [process_article, hE]
  · intro h
    obtain ⟨p, q, h1, h2, hext, hpq, hqlen⟩ := extract_found h
    obtain ⟨hp1, hp2, hp3, hp4⟩ := findFirstIdx_some h1
    obtain ⟨hq1, hq2, hq3, hq4⟩ := findFirstIdx_some h2
    refine ⟨p, q, hext, by simpa using hp3, ?_, hpq, hqlen, ?_, ?_⟩
    · intro j hj
      have := hp4 j (Nat.zero_le _) hj
      simpa using this
    · have := hq3
      rw [List.drop_drop, show (p + 21) + (q - (p + 21)) = q from by omega] at this
      exact this
    · intro j hj1 hj2
      have := hq4 j hj1 hj2
      rw [List.drop_drop, show (p + 21) + (j - (p + 21)) = j from by omega] at this
      exact this

theorem C7_content_extraction_witness :
    ((extract_content_section "<html><body><p>x</p></body></html>".toList).1 = -1 →
      extract_content_section "<html><body><p>x</p></body></html>".toList = (-1, -1, []) ∧
      (process_article "<html><body><p>x</p></body></html>".toList [] false).1.errors
        = ["Sezione .content non trovata".toList] ∧
      (process_article "<html><body><p>x</p></body></html>".toList [] false).1.changes = [] ∧
      (process_article "<html><body><p>x</p></body></html>".toList [] false).2 = none)
    ∧ ((extract_content_section "<html><body><p>x</p></body></html>".toList).1 ≠ -1 →
      ∃ p q : Nat,
        extract_content_section "<html><body><p>x</p></body></html>".toList
          = (((p + 21 : Nat) : Int), ((q : Nat) : Int),
             (("<html><body><p>x</p></body></html>".toList).drop (p + 21)).take (q - (p + 21))) ∧
        (dropLit openTagChars (("<html><body><p>x</p></body></html>".toList).drop p)).isSome
          = true ∧
        (∀ j, j < p →
          (dropLit openTagChars (("<html><body><p>x</p></body></html>".toList).drop j)).isSome
            = false) ∧
        p + 21 ≤ q ∧ q ≤ ("<html><body><p>x</p></body></html>".toList).length ∧
        closesAt (("<html><body><p>x</p></body></html>".toList).drop q) = true ∧
        ∀ j, p + 21 ≤ j → j < q →
          closesAt (("<html><body><p>x</p></body></html>".toList).drop j) = false) :=
  C7_content_extraction "<html><body><p>x</p></body></html>".toList [] false

/-- C5: in preview (dry-run) mode the Article Processor never produces a
write; when not in preview mode and the Change Record list is non-empty, the
written document is the original text with exactly the extracted fragment
span `[start, end)` replaced by the new fragment, so every character outside
that span (the prefix before `start` and the suffix from `end`) is preserved
unchanged. -/
theorem C5_preview_and_splice (html : List Char) (avail : List (List Char)) :
    (process_article html avail true).2 = none
    ∧ ((process_article html avail false).1.changes ≠ [] →
      ∃ p q : Nat,
        extract_content_section html
          = (((p + 21 : Nat) : Int), ((q : Nat) : Int),
             (html.drop (p + 21)).take (q - (p + 21)))
        ∧ p + 21 ≤ q ∧ q ≤ html.length
        ∧ (process_article html avail false).2
            = some (html.take (p + 21)
                ++ (replace_images_in_content ((html.drop (p + 21)).take (q - (p + 21))) avail).1
                ++ html.drop q)
        ∧ ∀ w, (process_article html avail false).2 = some w →
            w.take (p + 21) = html.take (p + 21)
            ∧ w.drop ((p + 21)
                + (replace_images_in_content ((html.drop (p + 21)).take (q - (p + 21)))
                    avail).1.length)
              = html.drop q) := by
  constructor
  · by_cases hE : (extract_content_section html).1 = -1
    · simp [process_article, extract_sentinel hE]
    · obtain ⟨p, q, _, _, hext, hpq, hql⟩ := extract_found hE
      have hne : ¬((p : Int) + 21 = -1) := by omega
      simp [process_article, hext, hne]
  · intro hch
    by_cases hE : (extract_content_section html).1 = -1
    · exfalso
      apply hch
      simp [process_article, extract_sentinel hE]
    · obtain ⟨p, q, _, _, hext, hpq, hql⟩ := extract_found hE
      have hne : ¬((p : Int) + 21 = -1) := by omega
      have hch' : (replace_images_in_content ((html.drop (p + 21)).take (q - (p + 21)))
          avail).2 ≠ [] := by
        intro h0
        apply hch
        simp [process_article, hext, hne, h0]
      have htn : ((p : Int) + 21).toNat = p + 21 := by omega
      have hw : (process_article html avail false).2
          = some (html.take (p + 21)
              ++ (replace_images_in_content ((html.drop (p + 21)).take (q - (p + 21))) avail).1
              ++ html.drop q) := by
        simp [process_article, hext, hne, hch', htn]
      refine ⟨p, q, hext, hpq, hql, hw, ?_⟩
      intro w hw2
      rw [hw] at hw2
      have hweq : w = html.take (p + 21)
          ++ (replace_images_in_content ((html.drop (p + 21)).take (q - (p + 21))) avail).1
          ++ html.drop q := by
        simpa using hw2.symm
      subst hweq
      have hlt : (html.take (p + 21)).length = p + 21 := by
        rw [List.length_take]
        omega
      constructor
      · rw [show html.take (p + 21)
            ++ (replace_images_in_content ((html.drop (p + 21)).take (q - (p + 21))) avail).1
            ++ html.drop q
          = html.take (p + 21)
            ++ ((replace_images_in_content ((html.drop (p + 21)).take (q - (p + 21))) avail).1
              ++ html.drop q) from by simp,
          List.take_append_eq_append_take, hlt, Nat.sub_self, List.take_zero, List.append_nil,
          List.take_of_length_le (by rw [hlt])]
      · rw [show html.take (p + 21)
            ++ (replace_images_in_content ((html.drop (p + 21)).take (q - (p + 21))) avail).1
            ++ html.drop q
          = (html.take (p + 21)
              ++ (replace_images_in_content ((html.drop (p + 21)).take (q - (p + 21))) avail).1)
            ++ html.drop q from by simp]
        exact List.drop_left' (by rw [List.length_append, hlt])

theorem C5_preview_and_splice_witness :
    (process_article "<html><body><div class=\"content\"><img src=\"u\"></div></body></html>".toList
        ["image-2.webp".toList] true).2 = none
    ∧ (∃ p q : Nat,
        extract_content_section
            "<html><body><div class=\"content\"><img src=\"u\"></div></body></html>".toList
          = (((p + 21 : Nat) : Int), ((q : Nat) : Int),
             (("<html><body><div class=\"content\"><img src=\"u\"></div></body></html>".toList).drop
                (p + 21)).take (q - (p + 21)))
        ∧ p + 21 ≤ q
        ∧ q ≤ ("<html><body><div class=\"content\"><img src=\"u\"></div></body></html>".toList).length
        ∧ (process_article
              "<html><body><div class=\"content\"><img src=\"u\"></div></body></html>".toList
              ["image-2.webp".toList] false).2
            = some (("<html><body><div class=\"content\"><img src=\"u\"></div></body></html>".toList).take (p + 21)
                ++ (replace_images_in_content
                    ((("<html><body><div class=\"content\"><img src=\"u\"></div></body></html>".toList).drop
                        (p + 21)).take (q - (p + 21)))
                    ["image-2.webp".toList]).1
                ++ ("<html><body><div class=\"content\"><img src=\"u\"></div></body></html>".toList).drop q)
        ∧ ∀ w, (process_article
              "<html><body><div class=\"content\"><img src=\"u\"></div></body></html>".toList
              ["image-2.webp".toList] false).2 = some w →
            w.take (p + 21)
              = ("<html><body><div class=\"content\"><img src=\"u\"></div></body></html>".toList).take (p + 21)
            ∧ w.drop ((p + 21)
                + (replace_images_in_content
                    ((("<html><body><div class=\"content\"><img src=\"u\"></div></body></html>".toList).drop
                        (p + 21)).take (q - (p + 21)))
                    ["image-2.webp".toList]).1.length)
              = ("<html><body><div class=\"content\"><img src=\"u\"></div></body></html>".toList).drop q) :=
  ⟨(C5_preview_and_splice
      "<html><body><div class=\"content\"><img src=\"u\"></div></body></html>".toList
      ["image-2.webp".toList]).1,
   (C5_preview_and_splice
      "<html><body><div class=\"content\"><img src=\"u\"></div></body></html>".toList
      ["image-2.webp".toList]).2 (by decide)⟩

/-- C4: a missing expected file is non-fatal.  The engine's output fragment
equals the selective splice in which every occurrence whose expected filename
is not available keeps its original URL (the span is re-spliced with the URL
itself, i.e. left unchanged); each Change Record's `exists` flag is exactly
the availability of its `new_url`; and the Article Processor's error list,
when the `.content` section is found, holds exactly one summary string
`"N immagini mancanti: [...]"` (listing the missing expected filenames) if
and only if at least one Change Record has `exists = false`, and is empty
otherwise — `process_article` is a total function that returns a result in
every case, so this never raises nor halts processing. -/
theorem C4_missing_non_fatal (content : List Char) (avail : List (List Char))
    (html : List Char) (d : Bool)
    (hfound : (extract_content_section html).1 ≠ -1) :
    (replace_images_in_content content avail).1
        = spliceSel avail 0 content (List.enumFrom 0 (findImgMatches content 0))
    ∧ (∀ r ∈ (replace_images_in_content content avail).2,
        r.exists_ = avail.contains r.new_url)
    ∧ ((process_article html avail d).1.errors = []
        ↔ ∀ r ∈ (process_article html avail d).1.changes, r.exists_ = true)
    ∧ ((process_article html avail d).1.errors
          = [missing_error
              ((process_article html avail d).1.changes.filter (fun c => !c.exists_))]
        ↔ ∃ r ∈ (process_article html avail d).1.changes, r.exists_ = false) := by
  obtain ⟨p, q, _, _, hext, hpq, hql⟩ := extract_found hfound
  have hne : ¬(((p + 21 : Nat) : Int) = -1) := by omega
  have hch : (process_article html avail d).1.changes
      = (replace_images_in_content ((html.drop (p + 21)).take (q - (p + 21))) avail).2 := by
    simp only [process_article, hext]
    rw [if_neg hne]
  have herr : (process_article html avail d).1.errors
      = if ((replace_images_in_content ((html.drop (p + 21)).take (q - (p + 21))) avail).2.filter
            (fun c => c.exists_)).length
          ≠ (replace_images_in_content ((html.drop (p + 21)).take (q - (p + 21))) avail).2.length
        then [missing_error
            ((replace_images_in_content ((html.drop (p + 21)).take (q - (p + 21))) avail).2.filter
              (fun c => !c.exists_))]
        else [] := by
    simp only [process_article, hext]
    rw [if_neg hne]
  refine ⟨replace_fragment_spliceSel content avail, ?_, ?_, ?_⟩
  · intro r hr
    rw [replace_records_eq] at hr
    obtain ⟨pp, hpp, rfl⟩ := List.mem_map.mp hr
    rfl
  · rw [hch, herr]
    by_cases hall : ∀ r ∈ (replace_images_in_content
        ((html.drop (p + 21)).take (q - (p + 21))) avail).2, r.exists_ = true
    · rw [if_neg (not_not_intro (List.filter_length_eq_length.mpr hall))]
      exact iff_of_true rfl hall
    · rw [if_pos (fun heq => hall (List.filter_length_eq_length.mp heq))]
      exact iff_of_false (by simp) hall
  · rw [hch, herr]
    by_cases hall : ∀ r ∈ (replace_images_in_content
        ((html.drop (p + 21)).take (q - (p + 21))) avail).2, r.exists_ = true
    · rw [if_neg (not_not_intro (List.filter_length_eq_length.mpr hall))]
      refine iff_of_false (by simp) ?_
      rintro ⟨r, hr, hf⟩
      rw [hall r hr] at hf
      simp at hf
    · rw [if_pos (fun heq => hall (List.filter_length_eq_length.mp heq))]
      refine iff_of_true rfl ?_
      push_neg at hall
      obtain ⟨r, hr, hf⟩ := hall
      exact ⟨r, hr, by simpa using hf⟩

theorem C4_missing_non_fatal_witness :
    (replace_images_in_content "<img src=\"https://cdn.x/a.jpg\"> <img src=\"https://cdn.x/b.jpg\">".toList
          ["image-2.webp".toList]).1
        = spliceSel ["image-2.webp".toList] 0
            "<img src=\"https://cdn.x/a.jpg\"> <img src=\"https://cdn.x/b.jpg\">".toList
            (List.enumFrom 0
              (findImgMatches
                "<img src=\"https://cdn.x/a.jpg\"> <img src=\"https://cdn.x/b.jpg\">".toList 0))
    ∧ (∀ r ∈ (replace_images_in_content
          "<img src=\"https://cdn.x/a.jpg\"> <img src=\"https://cdn.x/b.jpg\">".toList
          ["image-2.webp".toList]).2,
        r.exists_ = (["image-2.webp".toList]).contains r.new_url)
    ∧ ((process_article
          "<html><body><div class=\"content\"><img src=\"u\"></div></body></html>".toList
          ["image-2.webp".toList] false).1.errors = []
        ↔ ∀ r ∈ (process_article
            "<html><body><div class=\"content\"><img src=\"u\"></div></body></html>".toList
            ["image-2.webp".toList] false).1.changes, r.exists_ = true)
    ∧ ((process_article
          "<html><body><div class=\"content\"><img src=\"u\"></div></body></html>".toList
          ["image-2.webp".toList] false).1.errors
          = [missing_error
              ((process_article
                  "<html><body><div class=\"content\"><img src=\"u\"></div></body></html>".toList
                  ["image-2.webp".toList] false).1.changes.filter (fun c => !c.exists_))]
        ↔ ∃ r ∈ (process_article
            "<html><body><div class=\"content\"><img src=\"u\"></div></body></html>".toList
            ["image-2.webp".toList] false).1.changes, r.exists_ = false) :=
  C4_missing_non_fatal
    "<img src=\"https://cdn.x/a.jpg\"> <img src=\"https://cdn.x/b.jpg\">".toList
    ["image-2.webp".toList]
    "<html><body><div class=\"content\"><img src=\"u\"></div></body></html>".toList
    false (by decide)

/-- Value of a run of decimal digit characters, as Python `int()` parses it. -/
def digitsVal (l : List Char) : Nat := l.foldl (fun a c => 10 * a + (c.toNat - 48)) 0

/-- Key extraction `int(re.search(r'image-(\d+)', x).group(1))`: the leftmost
occurrence of `image-` followed by at least one digit, capturing the maximal
digit run; `none` models the `AttributeError` raised when no such occurrence
exists. -/
def imageKey : List Char → Option Nat
  | [] => none
  | s@(_ :: rest) =>
    match dropLit "image-".toList s with
    | some r =>
        if r.takeWhile isDigitCh = [] then imageKey rest
        else some (digitsVal (r.takeWhile isDigitCh))
    | none => imageKey rest

/-- Ordering of inventory entries by the integer captured by `imageKey`
(the `key=` of the Python `sorted` call). -/
def keyLe (a b : List Char) : Prop := (imageKey a).getD 0 ≤ (imageKey b).getD 0

instance : DecidableRel keyLe := fun a b =>
  inferInstanceAs (Decidable ((imageKey a).getD 0 ≤ (imageKey b).getD 0))

instance : IsTotal (List Char) keyLe := ⟨fun a b => Nat.le_total _ _⟩

instance : IsTrans (List Char) keyLe := ⟨fun _ _ _ => Nat.le_trans⟩

/-- The Image Inventory `get_available_images(folder)`: the folder listing is
abstracted into the list of entry names; keeps the names that start with
`image-` and end with `.webp` and sorts them by the captured integer.
Python's `sorted` is a stable sort by that key and `insertionSort` with a
(non-strict) total preorder is stable as well, so the two agree on every
listing; `none` models the exception raised when some kept name has no
parseable integer. -/
def get_available_images (entries : List (List Char)) : Option (List (List Char)) :=
  let images := entries.filter (fun n =>
    (dropLit "image-".toList n).isSome && (dropLit ".webp".toList.reverse n.reverse).isSome)
  if images.all (fun n => (imageKey n).isSome) then
    some (List.insertionSort keyLe images)
  else none

/-- C8: for a folder whose matching names (start `image-`, end `.webp`) all
contain a parseable integer after `image-`, the Image Inventory returns
exactly those filenames, sorted ascending by that integer (`keyLe`), not
lexicographically. -/
theorem C8_inventory_sorted (entries : List (List Char))
    (h : ∀ n ∈ entries.filter (fun n =>
        (dropLit "image-".toList n).isSome && (dropLit ".webp".toList.reverse n.reverse).isSome),
      (imageKey n).isSome = true) :
    ∃ l, get_available_images entries = some l
      ∧ l.Perm (entries.filter (fun n =>
          (dropLit "image-".toList n).isSome
            && (dropLit ".webp".toList.reverse n.reverse).isSome))
      ∧ l.Sorted keyLe := by
  refine ⟨List.insertionSort keyLe (entries.filter (fun n =>
      (dropLit "image-".toList n).isSome
        && (dropLit ".webp".toList.reverse n.reverse).isSome)), ?_, ?_, ?_⟩
  · unfold get_available_images
    rw [if_pos (List.all_eq_true.mpr h)]
  · exact List.perm_insertionSort keyLe _
  · exact List.sorted_insertionSort keyLe _

theorem C8_inventory_sorted_witness :
    (∀ n ∈ (["image-10.webp".toList, "image-9.webp".toList, "cover.jpg".toList,
          "image-2.webp".toList]).filter (fun n =>
        (dropLit "image-".toList n).isSome && (dropLit ".webp".toList.reverse n.reverse).isSome),
      (imageKey n).isSome = true)
    ∧ (∃ l, get_available_images ["image-10.webp".toList, "image-9.webp".toList,
          "cover.jpg".toList, "image-2.webp".toList] = some l
        ∧ l.Perm ((["image-10.webp".toList, "image-9.webp".toList, "cover.jpg".toList,
            "image-2.webp".toList]).filter (fun n =>
          (dropLit "image-".toList n).isSome
            && (dropLit ".webp".toList.reverse n.reverse).isSome))
        ∧ l.Sorted keyLe)
    ∧ get_available_images ["image-10.webp".toList, "image-9.webp".toList,
        "cover.jpg".toList, "image-2.webp".toList]
      = some ["image-2.webp".toList, "image-9.webp".toList, "image-10.webp".toList] :=
  ⟨by decide, C8_inventory_sorted _ (by decide), by decide⟩

/-- One directory entry of a scanned subdirectory, with the two facts
`find_article_folders` inspects: whether it is a directory and whether it
contains a direct child file `article.html`. -/
structure DirEntry where
  name : List Char
  isDir : Bool
  hasArticle : Bool
deriving DecidableEq

/-- The base directory as seen by the Folder Scanner: the two fixed
subdirectory names `articles` and `feedback-friday`, each either absent
(`none`, the `.exists()` check fails) or present with its child entries. -/
structure BaseDir where
  articles : Option (List DirEntry)
  feedback_friday : Option (List DirEntry)
deriving DecidableEq

/-- Qualifying child folders of one subdirectory, as paths `sub/name`
(relative to the base; the shared base prefix does not affect path order). -/
def subdirFolders (sub : List Char) (o : Option (List DirEntry)) : List (List Char) :=
  match o with
  | none => []
  | some es => (es.filter (fun e => e.isDir && e.hasArticle)).map (fun e => sub ++ '/' :: e.name)

/-- The Folder Scanner `find_article_folders(base_path)`: child directories
of `articles` then `feedback-friday` that contain `article.html`, then
`sorted(folders)`.  `pathlib` compares paths by their string (equivalently,
by their parts, since entry names contain no separator), which is the
lexicographic order on `List Char`; `sorted` is stable and the collected
paths are pairwise distinct for a real directory listing, so the stable
`insertionSort` models it exactly. -/
def find_article_folders (base : BaseDir) : List (List Char) :=
  List.insertionSort (fun a b => a ≤ b)
    (subdirFolders "articles".toList base.articles
      ++ subdirFolders "feedback-friday".toList base.feedback_friday)

/-- C9: the Folder Scanner returns exactly the immediate child directories of
`articles` and `feedback-friday` that contain `article.html`, merged and
sorted lexicographically by path; a child lacking `article.html` (or that is
not a directory) is excluded, and a missing subdirectory contributes nothing,
without error. -/
theorem C9_folder_scanner (base : BaseDir) :
    (find_article_folders base).Sorted (fun a b => a ≤ b)
    ∧ (find_article_folders base).Perm
        (subdirFolders "articles".toList base.articles
          ++ subdirFolders "feedback-friday".toList base.feedback_friday)
    ∧ (base.articles = none →
        (find_article_folders base).Perm
          (subdirFolders "feedback-friday".toList base.feedback_friday))
    ∧ ∀ pth, pth ∈ find_article_folders base ↔
        ((∃ es, base.articles = some es ∧ ∃ e ∈ es, e.isDir = true ∧ e.hasArticle = true ∧
            pth = "articles".toList ++ '/' :: e.name)
          ∨ (∃ es, base.feedback_friday = some es ∧ ∃ e ∈ es, e.isDir = true ∧
              e.hasArticle = true ∧ pth = "feedback-friday".toList ++ '/' :: e.name)) := by
  have hperm := List.perm_insertionSort (fun a b : List Char => a ≤ b)
    (subdirFolders "articles".toList base.articles
      ++ subdirFolders "feedback-friday".toList base.feedback_friday)
  unfold find_article_folders
  refine ⟨List.sorted_insertionSort _ _, hperm, ?_, ?_⟩
  · intro hn
    have e0 : subdirFolders "articles".toList none = [] := rfl
    rw [hn, e0, List.nil_append]
    exact List.perm_insertionSort _ _
  · intro pth
    rw [hperm.mem_iff, List.mem_append]
    constructor
    · rintro (hm | hm)
      · left
        rcases hb : base.articles with _ | es
        · rw [hb] at hm; simp [subdirFolders] at hm
        · rw [hb] at hm
          simp only [subdirFolders] at hm
          obtain ⟨e, he, rfl⟩ := List.mem_map.mp hm
          obtain ⟨he1, he2⟩ := List.mem_filter.mp he
          have he2' : e.isDir = true ∧ e.hasArticle = true := by simpa using he2
          refine ⟨es, rfl, e, he1, he2'.1, he2'.2, rfl⟩
      · right
        rcases hb : base.feedback_friday with _ | es
        · rw [hb] at hm; simp [subdirFolders] at hm
        · rw [hb] at hm
          simp only [subdirFolders] at hm
          obtain ⟨e, he, rfl⟩ := List.mem_map.mp hm
          obtain ⟨he1, he2⟩ := List.mem_filter.mp he
          have he2' : e.isDir = true ∧ e.hasArticle = true := by simpa using he2
          refine ⟨es, rfl, e, he1, he2'.1, he2'.2, rfl⟩
    · rintro (⟨es, hb, e, he, h1, h2, rfl⟩ | ⟨es, hb, e, he, h1, h2, rfl⟩)
      · left
        rw [hb]
        simp only [subdirFolders]
        exact List.mem_map.mpr ⟨e, List.mem_filter.mpr ⟨he, by simp [h1, h2]⟩, rfl⟩
      · right
        rw [hb]
        simp only [subdirFolders]
        exact List.mem_map.mpr ⟨e, List.mem_filter.mpr ⟨he, by simp [h1, h2]⟩, rfl⟩
